import Mathlib

/-!
Shallow embedding of the `organize_photos` package: the duplicate-ledger
functions `write_duplicate_report` and `get_files_to_delete`, the path
resolver `get_unique_filename`, the metadata extractor `get_exif_date`,
the transfer engine `transfer_file` / `create_date_based_directory`
(all from `organize_photos/utils.py`), and the source/destination overlap
validation of the `organize` command (`organize_photos/cli.py`).

Modelling conventions:
* A Python `Path` value is modelled by its POSIX string rendering; where the
  code reads a path's `parent` / `stem` / `suffix`, the path is modelled by
  the structure `FsPath` recording that decomposition.
* A CSV file is modelled as its list of rows, each row being the list of its
  field strings: the `csv` module writes each list passed to `writerow` as one
  row and `csv.reader` yields it back unchanged, so the claims about the
  report live at the row level.  A report that may be absent on disk is an
  `Option` (`none` models `FileNotFoundError`).
* A Python `dict` / `defaultdict(list)` keyed by strings is modelled as an
  association list in key-insertion order, which is exactly the iteration
  order of a Python dict; appending to an entry keeps the key's position.
* The filesystem, where the code only queries `Path.exists()` and creates
  entries, is modelled as the finite set of path strings that exist.
* Python string comparison is lexicographic on Unicode code points; it is
  modelled by `pathLe` below, and Python's stable `sorted` by insertion sort,
  which produces the same list as any sorting algorithm here because the sort
  key is the element itself (ties are identical strings).
-/

namespace OrganizePhotos

/-! ## String comparison, as Python compares `str(path)` values -/

/-- Lexicographic comparison of char lists by Unicode code point, the order
Python uses to compare strings. -/
def charListLe : List Char → List Char → Bool
  | [], _ => true
  | _ :: _, [] => false
  | a :: as, b :: bs =>
    if a.toNat = b.toNat then charListLe as bs else decide (a.toNat < b.toNat)

/-- Comparison used by `sorted(file_list, key=lambda p: str(p))`. -/
def pathLe (a b : String) : Bool := charListLe a.data b.data

/-- The order relation behind `pathLe`, for use with sorting lemmas. -/
def pathOrder (a b : String) : Prop := pathLe a b = true

instance : DecidableRel pathOrder := fun a b => by
  unfold pathOrder; infer_instance

theorem charListLe_trans :
    ∀ {a b c : List Char}, charListLe a b = true → charListLe b c = true →
      charListLe a c = true
  | [], _, _, _, _ => rfl
  | _ :: _, [], _, h, _ => by simp [charListLe] at h
  | _ :: _, _ :: _, [], _, h => by simp [charListLe] at h
  | a :: as, b :: bs, c :: cs, h₁, h₂ => by
    simp only [charListLe] at h₁ h₂ ⊢
    by_cases hab : a.toNat = b.toNat
    · rw [if_pos hab] at h₁
      by_cases hbc : b.toNat = c.toNat
      · rw [if_pos hbc] at h₂
        rw [if_pos (hab.trans hbc)]
        exact charListLe_trans h₁ h₂
      · rw [if_neg hbc] at h₂
        have h₂' : b.toNat < c.toNat := of_decide_eq_true h₂
        have hac : ¬ a.toNat = c.toNat := by omega
        rw [if_neg hac]
        exact decide_eq_true (by omega)
    · rw [if_neg hab] at h₁
      have h₁' : a.toNat < b.toNat := of_decide_eq_true h₁
      by_cases hbc : b.toNat = c.toNat
      · have hac : ¬ a.toNat = c.toNat := by omega
        rw [if_neg hac]
        exact decide_eq_true (by omega)
      · rw [if_neg hbc] at h₂
        have h₂' : b.toNat < c.toNat := of_decide_eq_true h₂
        have hac : ¬ a.toNat = c.toNat := by omega
        rw [if_neg hac]
        exact decide_eq_true (by omega)

theorem charListLe_total :
    ∀ (a b : List Char), charListLe a b = true ∨ charListLe b a = true
  | [], _ => Or.inl rfl
  | _ :: _, [] => Or.inr rfl
  | a :: as, b :: bs => by
    simp only [charListLe]
    by_cases hab : a.toNat = b.toNat
    · simp only [hab, if_pos rfl]
      exact charListLe_total as bs
    · have hba : b.toNat ≠ a.toNat := fun h => hab h.symm
      simp only [if_neg hab, if_neg hba, decide_eq_true_eq]
      omega

instance : IsTotal String pathOrder :=
  ⟨fun a b => charListLe_total a.data b.data⟩

instance : IsTrans String pathOrder :=
  ⟨fun _ _ _ h₁ h₂ => charListLe_trans h₁ h₂⟩

/-- Sorting as Python's `sorted` does on path strings. -/
def sortPaths (l : List String) : List String := l.insertionSort pathOrder

/-- The lexicographically larger of two path strings (Python `max` with
respect to string comparison). -/
def pathMax (a b : String) : String := if pathLe a b then b else a

/-! ## The duplicate ledger: `write_duplicate_report` and `get_files_to_delete`

A ledger (`duplicates: defaultdict[str, list[tuple[Path, Path]]]` in
`cli.py` / `utils.py`) maps a hash string to the ordered list of
`(old_path, new_path)` observations.  A parsed report group maps a hash
to the ordered list of observed locations. -/

/-- One row of the CSV report: the list of its fields. -/
abbrev Row := List String

/-- One parsed group: fingerprint and its ordered list of locations. -/
abbrev Group := String × List String

/-- Effect of `duplicates[file_hash].append(Path(new_filepath))` on a
`defaultdict(list)` in insertion order: append to the existing entry for the
key, or add a fresh singleton entry at the end. -/
def addRow (groups : List Group) (h p : String) : List Group :=
  match groups with
  | [] => [(h, [p])]
  | (k, l) :: rest =>
    if k = h then (k, l ++ [p]) :: rest else (k, l) :: addRow rest h p

/-- Body of the reader loop of `get_files_to_delete`: rows with at least two
fields contribute `row[0]` (hash) and `row[1]` (file path); shorter rows are
skipped (`if len(row) >= 2`). -/
def readRow (groups : List Group) (row : Row) : List Group :=
  match row with
  | h :: p :: _ => addRow groups h p
  | _ => groups

/-- The `duplicates` dict built by the reader loop of `get_files_to_delete`
from the data rows of the report. -/
def buildGroups (rows : List Row) : List Group :=
  rows.foldl readRow []

/-- The deletion loop of `get_files_to_delete`: for each group with more than
one location, sort by string path and add all but the first to the list. -/
def filesToDeleteOfGroups (groups : List Group) : List String :=
  groups.foldl
    (fun acc g =>
      if g.2.length > 1 then acc ++ (sortPaths g.2).drop 1 else acc) []

/-- Embedding of `get_files_to_delete`.  The input is the report's list of
rows, or `none` when the file does not exist (`FileNotFoundError`); an empty
file makes `next(reader)` raise `StopIteration`, and both exceptions are
caught and produce `[]`.  Otherwise the first row is consumed as the header
and the remaining rows are grouped and processed. -/
def get_files_to_delete (report : Option (List Row)) : List String :=
  match report with
  | none => []
  | some [] => []
  | some (_headerRow :: rows) => filesToDeleteOfGroups (buildGroups rows)

/-- Embedding of `write_duplicate_report`: the written file as its list of
rows.  One header row, then for every hash whose observation list has more
than one element, one row `[hash, str(new_path), str(old_path)]` per
observation `(old_path, new_path)`, in ledger order. -/
def write_duplicate_report (duplicates : List (String × List (String × String))) :
    List Row :=
  ["hash", "new_filepath", "old_filepath"] ::
    duplicates.foldl
      (fun acc g =>
        if g.2.length > 1 then
          acc ++ g.2.map (fun ob => [g.1, ob.2, ob.1])
        else acc) []

/-! ## Rewriting the two report folds as `flatMap`, for the proofs -/

/-- Contribution of one group to the deletion list. -/
def delContrib (g : Group) : List String :=
  if g.2.length > 1 then (sortPaths g.2).drop 1 else []

theorem filesToDelete_foldl_eq (groups : List Group) :
    ∀ acc : List String,
      groups.foldl
        (fun acc g =>
          if g.2.length > 1 then acc ++ (sortPaths g.2).drop 1 else acc) acc =
      acc ++ groups.flatMap delContrib := by
  induction groups with
  | nil => intro acc; simp
  | cons g gs ih =>
    intro acc
    simp only [List.foldl_cons, List.flatMap_cons]
    rw [ih]
    unfold delContrib
    by_cases h : g.2.length > 1
    · rw [if_pos h, if_pos h, List.append_assoc]
    · rw [if_neg h, if_neg h, List.nil_append]

theorem filesToDeleteOfGroups_eq (groups : List Group) :
    filesToDeleteOfGroups groups = groups.flatMap delContrib := by
  unfold filesToDeleteOfGroups
  rw [filesToDelete_foldl_eq]
  simp

/-- Contribution of one ledger entry to the data rows of the report. -/
def rowsContrib (g : String × List (String × String)) : List Row :=
  if g.2.length > 1 then g.2.map (fun ob => [g.1, ob.2, ob.1]) else []

theorem writeReport_foldl_eq (duplicates : List (String × List (String × String))) :
    ∀ acc : List Row,
      duplicates.foldl
        (fun acc g =>
          if g.2.length > 1 then
            acc ++ g.2.map (fun ob => [g.1, ob.2, ob.1])
          else acc) acc =
      acc ++ duplicates.flatMap rowsContrib := by
  induction duplicates with
  | nil => intro acc; simp
  | cons g gs ih =>
    intro acc
    simp only [List.foldl_cons, List.flatMap_cons]
    rw [ih]
    unfold rowsContrib
    by_cases h : g.2.length > 1
    · rw [if_pos h, if_pos h, List.append_assoc]
    · rw [if_neg h, if_neg h, List.nil_append]

theorem write_duplicate_report_eq (duplicates : List (String × List (String × String))) :
    write_duplicate_report duplicates =
      ["hash", "new_filepath", "old_filepath"] :: duplicates.flatMap rowsContrib := by
  unfold write_duplicate_report
  rw [writeReport_foldl_eq]
  simp

/-! ## Facts about `sortPaths` and the deletion list -/

theorem charListLe_refl : ∀ l : List Char, charListLe l l = true
  | [] => rfl
  | a :: as => by
    simp only [charListLe, if_pos rfl]
    exact charListLe_refl as

theorem pathOrder_refl (a : String) : pathOrder a a :=
  charListLe_refl a.data

theorem sortPaths_perm (l : List String) : (sortPaths l).Perm l :=
  List.perm_insertionSort pathOrder l

theorem sortPaths_sorted (l : List String) : (sortPaths l).Pairwise pathOrder :=
  List.sorted_insertionSort pathOrder l

theorem sortPaths_pair (a b : String) :
    sortPaths [a, b] = if pathLe a b then [a, b] else [b, a] := by
  simp only [sortPaths, List.insertionSort, List.orderedInsert]
  by_cases h : pathOrder a b
  · rw [if_pos h, if_pos (show pathLe a b from h)]
  · rw [if_neg h, if_neg (show ¬ pathLe a b = true from h)]

theorem mem_filesToDelete_of_mem_group {groups : List Group} {g : Group}
    (hg : g ∈ groups) {x : String} (hx : x ∈ delContrib g) :
    x ∈ filesToDeleteOfGroups groups := by
  rw [filesToDeleteOfGroups_eq]
  exact List.mem_flatMap.2 ⟨g, hg, hx⟩

/-! ## Claims about `get_files_to_delete` -/

/-- C1.  For every parsed report and every fingerprint group with at least two
locations, sorting the group's locations ascending by string path keeps the
lexicographically smallest (the head of the sorted list, below every location
of the group) and puts every other location of the group in the returned
deletion list; and a report whose two data rows share one fingerprint yields
exactly the lexicographically larger of the two paths. -/
theorem c1_compute_deletions_policy :
    (∀ (headerRow : Row) (rows : List Row) (h : String) (locs : List String),
        (h, locs) ∈ buildGroups rows → 2 ≤ locs.length →
        ∃ m t, sortPaths locs = m :: t ∧ (sortPaths locs).Perm locs ∧
          (sortPaths locs).Pairwise pathOrder ∧
          (∀ p ∈ locs, pathOrder m p) ∧
          (∀ p ∈ locs, p ≠ m →
            p ∈ get_files_to_delete (some (headerRow :: rows)))) ∧
    (∀ (headerRow : Row) (h a b : String) (ta tb : List String),
        get_files_to_delete (some (headerRow :: [h :: a :: ta, h :: b :: tb])) =
          [pathMax a b]) := by
  constructor
  · intro headerRow rows h locs hmem hlen
    have hperm := sortPaths_perm locs
    have hsorted := sortPaths_sorted locs
    have hlen' : (sortPaths locs).length = locs.length := hperm.length_eq
    obtain ⟨m, t, hmt⟩ : ∃ m t, sortPaths locs = m :: t := by
      cases hs : sortPaths locs with
      | nil => rw [hs] at hlen'; simp at hlen'; omega
      | cons m t => exact ⟨m, t, rfl⟩
    refine ⟨m, t, hmt, hperm, hsorted, ?_, ?_⟩
    · intro p hp
      have hp' : p ∈ sortPaths locs := hperm.mem_iff.2 hp
      rw [hmt] at hp'
      rcases List.mem_cons.1 hp' with rfl | hp''
      · exact pathOrder_refl p
      · rw [hmt] at hsorted
        exact (List.pairwise_cons.1 hsorted).1 p hp''
    · intro p hp hpm
      have hp' : p ∈ sortPaths locs := hperm.mem_iff.2 hp
      rw [hmt] at hp'
      have hpt : p ∈ t := by
        rcases List.mem_cons.1 hp' with rfl | hp''
        · exact absurd rfl hpm
        · assumption
      show p ∈ filesToDeleteOfGroups (buildGroups rows)
      refine mem_filesToDelete_of_mem_group hmem ?_
      unfold delContrib
      rw [if_pos (show (h, locs).2.length > 1 by simp; omega), hmt]
      simpa using hpt
  · intro headerRow h a b ta tb
    show filesToDeleteOfGroups
        (buildGroups [h :: a :: ta, h :: b :: tb]) = [pathMax a b]
    have hgroups : buildGroups [h :: a :: ta, h :: b :: tb] = [(h, [a, b])] := by
      simp [buildGroups, readRow, addRow]
    rw [hgroups, filesToDeleteOfGroups_eq]
    simp only [List.flatMap_cons, List.flatMap_nil, List.append_nil]
    unfold delContrib
    rw [if_pos (by simp), sortPaths_pair]
    by_cases hab : pathLe a b
    · rw [if_pos hab]
      simp [pathMax, hab]
    · rw [if_neg hab]
      simp only [pathMax]
      rw [if_neg hab]
      rfl

/-- Witness for C1 at a concrete report. -/
theorem c1_compute_deletions_policy_witness :
    (∃ m t, sortPaths ["b", "a"] = m :: t ∧ (sortPaths ["b", "a"]).Perm ["b", "a"] ∧
        (sortPaths ["b", "a"]).Pairwise pathOrder ∧
        (∀ p ∈ ["b", "a"], pathOrder m p) ∧
        (∀ p ∈ ["b", "a"], p ≠ m →
          p ∈ get_files_to_delete
            (some (["hash", "new_filepath", "old_filepath"] ::
              [["h", "b"], ["h", "a"]])))) ∧
    get_files_to_delete
        (some (["hash", "new_filepath", "old_filepath"] ::
          [["h", "x", "o1"], ["h", "w", "o2"]])) = [pathMax "x" "w"] :=
  ⟨c1_compute_deletions_policy.1 ["hash", "new_filepath", "old_filepath"]
      [["h", "b"], ["h", "a"]] "h" ["b", "a"] (by decide) (by decide),
    c1_compute_deletions_policy.2 ["hash", "new_filepath", "old_filepath"]
      "h" "x" "w" ["o1"] ["o2"]⟩

/-- C3.  The reader never fails on a missing or empty report (both produce the
empty deletion list), and it only consumes the first two fields of each data
row: truncating every row to its first two columns changes neither the parsed
groups nor the deletion list, so two-column and three-column layouts agree. -/
theorem c3_reader_missing_empty_columns :
    get_files_to_delete none = [] ∧
    get_files_to_delete (some []) = [] ∧
    ∀ (headerRow : Row) (rows : List Row),
      buildGroups (rows.map (fun r => r.take 2)) = buildGroups rows ∧
      get_files_to_delete (some (headerRow :: rows.map (fun r => r.take 2))) =
        get_files_to_delete (some (headerRow :: rows)) := by
  have readRow_take : ∀ (acc : List Group) (r : Row),
      readRow acc (r.take 2) = readRow acc r := by
    intro acc r
    match r with
    | [] => rfl
    | [a] => rfl
    | a :: b :: t => simp [readRow, List.take]
  have aux : ∀ (rows : List Row) (acc : List Group),
      List.foldl readRow acc (rows.map (fun r => r.take 2)) =
        List.foldl readRow acc rows := by
    intro rows
    induction rows with
    | nil => intro acc; rfl
    | cons r rs ih =>
      intro acc
      simp only [List.map_cons, List.foldl_cons, readRow_take]
      exact ih _
  refine ⟨rfl, rfl, fun headerRow rows => ⟨aux rows [], ?_⟩⟩
  show filesToDeleteOfGroups (buildGroups (rows.map (fun r => r.take 2))) =
    filesToDeleteOfGroups (buildGroups rows)
  rw [show buildGroups (rows.map (fun r => r.take 2)) = buildGroups rows from aux rows []]

/-- C4.  The written report is exactly one header row followed by one data row
per (fingerprint, location) pair for each fingerprint with at least two
observations, in ledger insertion order; fingerprints with exactly one
observation contribute no rows. -/
theorem c4_serialize_shape (duplicates : List (String × List (String × String))) :
    write_duplicate_report duplicates =
      ["hash", "new_filepath", "old_filepath"] ::
        (duplicates.filter (fun g => decide (g.2.length > 1))).flatMap
          (fun g => g.2.map (fun ob => [g.1, ob.2, ob.1])) := by
  rw [write_duplicate_report_eq]
  congr 1
  induction duplicates with
  | nil => rfl
  | cons g gs ih =>
    by_cases h : g.2.length > 1
    · rw [List.flatMap_cons, List.filter_cons_of_pos (by simpa using h),
        List.flatMap_cons, ih]
      unfold rowsContrib
      rw [if_pos h]
    · rw [List.flatMap_cons, List.filter_cons_of_neg (by simpa using h), ih]
      unfold rowsContrib
      rw [if_neg h, List.nil_append]

/-- C10.  Data rows with fewer than two fields are silently skipped (removing
them from the report changes nothing), and the first row is always consumed as
the header whatever its content. -/
theorem c10_reader_skips_malformed :
    (∀ rows : List Row,
        buildGroups (rows.filter (fun r => decide (2 ≤ r.length))) =
          buildGroups rows) ∧
    (∀ (h₁ h₂ : Row) (rows : List Row),
        get_files_to_delete (some (h₁ :: rows)) =
          get_files_to_delete (some (h₂ :: rows))) := by
  have readRow_short : ∀ (acc : List Group) (r : Row), r.length < 2 →
      readRow acc r = acc := by
    intro acc r hr
    match r with
    | [] => rfl
    | [a] => rfl
    | a :: b :: t => simp at hr; omega
  have aux : ∀ (rows : List Row) (acc : List Group),
      List.foldl readRow acc (rows.filter (fun r => decide (2 ≤ r.length))) =
        List.foldl readRow acc rows := by
    intro rows
    induction rows with
    | nil => intro acc; rfl
    | cons r rs ih =>
      intro acc
      by_cases h : 2 ≤ r.length
      · rw [List.filter_cons_of_pos (by simpa using h), List.foldl_cons,
          List.foldl_cons]
        exact ih _
      · rw [List.filter_cons_of_neg (by simpa using h), List.foldl_cons,
          readRow_short acc r (by omega)]
        exact ih _
  exact ⟨fun rows => aux rows [], fun h₁ h₂ rows => rfl⟩

/-! ## Duplicates in the deletion list (C8) -/

/-- The location fields (second columns) of the data rows the reader accepts,
in row order. -/
def reportLocations (rows : List Row) : List String :=
  rows.filterMap (fun r =>
    match r with
    | _ :: p :: _ => some p
    | _ => none)

theorem flatMap_snd_addRow (groups : List Group) (h p : String) :
    ((addRow groups h p).flatMap (fun g => g.2)).Perm
      (groups.flatMap (fun g => g.2) ++ [p]) := by
  induction groups with
  | nil => simp [addRow]
  | cons g rest ih =>
    obtain ⟨k, l⟩ := g
    by_cases hk : k = h
    · simp only [addRow, if_pos hk, List.flatMap_cons, List.append_assoc]
      exact List.Perm.append_left l (List.perm_append_comm)
    · simp only [addRow, if_neg hk, List.flatMap_cons]
      rw [List.append_assoc]
      exact List.Perm.append_left l ih

theorem flatMap_snd_foldl_readRow (rows : List Row) :
    ∀ acc : List Group,
      ((List.foldl readRow acc rows).flatMap (fun g => g.2)).Perm
        (acc.flatMap (fun g => g.2) ++ reportLocations rows) := by
  induction rows with
  | nil => intro acc; simp [reportLocations]
  | cons r rest ih =>
    intro acc
    match r with
    | [] =>
      simpa [reportLocations, readRow] using ih acc
    | [a] =>
      simpa [reportLocations, readRow] using ih acc
    | h :: p :: t =>
      simp only [List.foldl_cons, readRow]
      refine (ih (addRow acc h p)).trans ?_
      have : reportLocations ((h :: p :: t) :: rest) = p :: reportLocations rest := by
        simp [reportLocations]
      rw [this]
      refine List.Perm.trans (List.Perm.append_right _ (flatMap_snd_addRow acc h p)) ?_
      rw [List.append_assoc]
      exact List.Perm.append_left _ (by simp)

theorem flatMap_snd_buildGroups (rows : List Row) :
    ((buildGroups rows).flatMap (fun g => g.2)).Perm (reportLocations rows) := by
  simpa using flatMap_snd_foldl_readRow rows []

theorem subperm_append_both {α : Type _} {a b c d : List α}
    (h₁ : a.Subperm b) (h₂ : c.Subperm d) : (a ++ c).Subperm (b ++ d) := by
  obtain ⟨l, pl, sl⟩ := h₁
  obtain ⟨m, pm, sm⟩ := h₂
  exact ⟨l ++ m, pl.append pm, sl.append sm⟩

theorem delContrib_subperm (g : Group) : (delContrib g).Subperm g.2 := by
  unfold delContrib
  by_cases h : g.2.length > 1
  · rw [if_pos h]
    exact ((sortPaths g.2).drop_sublist 1).subperm.trans (sortPaths_perm g.2).subperm
  · rw [if_neg h]
    exact List.nil_subperm

theorem flatMap_delContrib_subperm (groups : List Group) :
    (groups.flatMap delContrib).Subperm (groups.flatMap (fun g => g.2)) := by
  induction groups with
  | nil => simp
  | cons g rest ih =>
    simp only [List.flatMap_cons]
    exact subperm_append_both (delContrib_subperm g) ih

/-- C8 as stated is false on the code: a report in which the same location
appears under two fingerprints makes `get_files_to_delete` return that
location twice. -/
theorem c8_counterexample :
    ¬ (get_files_to_delete
        (some [["hash", "new_filepath", "old_filepath"],
               ["h1", "b"], ["h1", "a"], ["h2", "b"], ["h2", "a"]])).Nodup := by
  decide

/-- C8 amended.  If the location fields of the report's data rows are pairwise
distinct — as they are in every report produced by an organize run, where each
transferred file receives a fresh unique path — then the deletion list
returned by `get_files_to_delete` contains no duplicate locations, neither
across fingerprint groups nor within one group. -/
theorem c8_no_duplicate_deletions (headerRow : Row) (rows : List Row)
    (hnd : (reportLocations rows).Nodup) :
    (get_files_to_delete (some (headerRow :: rows))).Nodup := by
  show (filesToDeleteOfGroups (buildGroups rows)).Nodup
  rw [filesToDeleteOfGroups_eq]
  have h₁ : (((buildGroups rows).flatMap (fun g => g.2))).Nodup :=
    ((flatMap_snd_buildGroups rows).symm).nodup hnd
  obtain ⟨l, pl, sl⟩ := flatMap_delContrib_subperm (buildGroups rows)
  exact pl.nodup (sl.nodup h₁)

/-- Witness for the amended C8 at a concrete report. -/
theorem c8_no_duplicate_deletions_witness :
    (reportLocations [["h", "b"], ["h", "a"], ["h2", "c"]]).Nodup ∧
    (get_files_to_delete
        (some (["hash", "new_filepath", "old_filepath"] ::
          [["h", "b"], ["h", "a"], ["h2", "c"]]))).Nodup :=
  ⟨by decide,
    c8_no_duplicate_deletions ["hash", "new_filepath", "old_filepath"]
      [["h", "b"], ["h", "a"], ["h2", "c"]] (by decide)⟩

/-! ## Round trip (C2) -/

/-- The in-memory ledger's new-path groups: for each fingerprint, the ordered
list of destination paths recorded for it (the spec side of C2). -/
def ledgerNewGroups (ledger : List (String × List (String × String))) :
    List Group :=
  ledger.map (fun g => (g.1, g.2.map Prod.snd))

theorem addRow_fresh (acc : List Group) (h p : String)
    (hfresh : h ∉ acc.map Prod.fst) : addRow acc h p = acc ++ [(h, [p])] := by
  induction acc with
  | nil => rfl
  | cons g rest ih =>
    obtain ⟨k, l⟩ := g
    simp only [List.map_cons, List.mem_cons] at hfresh
    push_neg at hfresh
    simp only [addRow, if_neg (fun hkh : k = h => hfresh.1 hkh.symm), List.cons_append]
    rw [ih hfresh.2]

theorem addRow_last (acc : List Group) (h : String) (l : List String) (p : String)
    (hfresh : h ∉ acc.map Prod.fst) :
    addRow (acc ++ [(h, l)]) h p = acc ++ [(h, l ++ [p])] := by
  induction acc with
  | nil => simp [addRow]
  | cons g rest ih =>
    obtain ⟨k, m⟩ := g
    simp only [List.map_cons, List.mem_cons] at hfresh
    push_neg at hfresh
    simp only [List.cons_append, addRow,
      if_neg (fun hkh : k = h => hfresh.1 hkh.symm), List.append_eq]
    rw [ih hfresh.2]

theorem foldl_addRow_block (ps : List String) :
    ∀ (l : List String) (acc : List Group) (h : String),
      h ∉ acc.map Prod.fst →
      List.foldl (fun a p => addRow a h p) (acc ++ [(h, l)]) ps =
        acc ++ [(h, l ++ ps)] := by
  induction ps with
  | nil => intro l acc h _; simp
  | cons p ps ih =>
    intro l acc h hfresh
    simp only [List.foldl_cons]
    rw [addRow_last acc h l p hfresh, ih (l ++ [p]) acc h hfresh,
      List.append_assoc]
    rfl

theorem foldl_addRow_fresh (ps : List String) (acc : List Group) (h : String)
    (hne : ps ≠ []) (hfresh : h ∉ acc.map Prod.fst) :
    List.foldl (fun a p => addRow a h p) acc ps = acc ++ [(h, ps)] := by
  match ps with
  | [] => exact absurd rfl hne
  | p :: ps =>
    simp only [List.foldl_cons]
    rw [addRow_fresh acc h p hfresh, foldl_addRow_block ps [p] acc h hfresh]
    rfl

theorem foldl_readRow_ledger (ledger : List (String × List (String × String))) :
    ∀ acc : List Group,
      (ledger.map Prod.fst).Nodup →
      (∀ k ∈ ledger.map Prod.fst, k ∉ acc.map Prod.fst) →
      List.foldl readRow acc (ledger.flatMap rowsContrib) =
        acc ++ ledgerNewGroups
          (ledger.filter (fun g => decide (g.2.length > 1))) := by
  induction ledger with
  | nil => intro acc _ _; simp [ledgerNewGroups]
  | cons g rest ih =>
    intro acc hnd hdisj
    simp only [List.flatMap_cons, List.foldl_append]
    simp only [List.map_cons, List.nodup_cons] at hnd
    by_cases hq : g.2.length > 1
    · have hcontrib : rowsContrib g = g.2.map (fun ob => [g.1, ob.2, ob.1]) := by
        unfold rowsContrib; rw [if_pos hq]
      have hfold : List.foldl readRow acc (rowsContrib g) =
          acc ++ [(g.1, g.2.map Prod.snd)] := by
        rw [hcontrib]
        have h1 : List.foldl readRow acc (g.2.map (fun ob => [g.1, ob.2, ob.1])) =
            List.foldl (fun a ob => addRow a g.1 ob.2) acc g.2 :=
          List.foldl_map _ _ _ _
        have h2 : List.foldl (fun a ob => addRow a g.1 ob.2) acc g.2 =
            List.foldl (fun a p => addRow a g.1 p) acc (g.2.map Prod.snd) :=
          (List.foldl_map _ _ _ _).symm
        rw [h1, h2]
        refine foldl_addRow_fresh _ acc g.1 ?_ ?_
        · intro hmap
          have hlen : g.2.length = 0 := by
            have := congrArg List.length hmap
            simpa using this
          omega
        · exact hdisj g.1 (by simp)
      rw [hfold]
      rw [List.filter_cons_of_pos (by simpa using hq)]
      have := ih (acc ++ [(g.1, g.2.map Prod.snd)]) hnd.2 ?_
      · rw [this]
        simp [ledgerNewGroups, List.append_assoc]
      · intro k hk
        simp only [List.map_append, List.mem_append]
        push_neg
        refine ⟨hdisj k (by simp [hk]), ?_⟩
        simp only [List.map_cons, List.mem_singleton]
        intro hcon
        simp only [List.map_nil, List.mem_cons, List.not_mem_nil, or_false] at hcon
        exact hnd.1 (hcon ▸ hk)
    · have hcontrib : rowsContrib g = [] := by
        unfold rowsContrib; rw [if_neg hq]
      rw [hcontrib]
      simp only [List.foldl_nil]
      rw [List.filter_cons_of_neg (by simpa using hq)]
      exact ih acc hnd.2 (fun k hk => hdisj k (by simp [hk]))

theorem filesToDelete_filter_gt1 (ledger : List (String × List (String × String))) :
    filesToDeleteOfGroups
        (ledgerNewGroups (ledger.filter (fun g => decide (g.2.length > 1)))) =
      filesToDeleteOfGroups (ledgerNewGroups ledger) := by
  rw [filesToDeleteOfGroups_eq, filesToDeleteOfGroups_eq]
  induction ledger with
  | nil => rfl
  | cons g rest ih =>
    by_cases hq : g.2.length > 1
    · rw [List.filter_cons_of_pos (by simpa using hq)]
      simp only [ledgerNewGroups, List.map_cons, List.flatMap_cons]
      rw [show (rest.filter (fun g => decide (g.2.length > 1))).map
            (fun g => (g.1, g.2.map Prod.snd)) =
          ledgerNewGroups (rest.filter (fun g => decide (g.2.length > 1))) from rfl,
        show rest.map (fun g => (g.1, g.2.map Prod.snd)) =
          ledgerNewGroups rest from rfl, ih]
    · rw [List.filter_cons_of_neg (by simpa using hq)]
      simp only [ledgerNewGroups, List.map_cons, List.flatMap_cons]
      have : delContrib (g.1, g.2.map Prod.snd) = [] := by
        unfold delContrib
        rw [if_neg (by simpa using hq)]
      rw [this, List.nil_append]
      exact ih

/-- C2.  Round trip: writing the in-memory ledger with
`write_duplicate_report` and recomputing deletions from the written report
with `get_files_to_delete` yields exactly the deletion list obtained by
applying the keep-lexicographically-smallest policy directly to the ledger's
new-path groups.  The hypothesis says the ledger is a genuine map: its
fingerprint keys are pairwise distinct, as for any Python dict. -/
theorem c2_round_trip (ledger : List (String × List (String × String)))
    (hkeys : (ledger.map Prod.fst).Nodup) :
    get_files_to_delete (some (write_duplicate_report ledger)) =
      filesToDeleteOfGroups (ledgerNewGroups ledger) := by
  rw [write_duplicate_report_eq]
  show filesToDeleteOfGroups (buildGroups (ledger.flatMap rowsContrib)) = _
  rw [show buildGroups (ledger.flatMap rowsContrib) =
      ledgerNewGroups (ledger.filter (fun g => decide (g.2.length > 1))) by
    simpa using foldl_readRow_ledger ledger [] hkeys (by simp)]
  exact filesToDelete_filter_gt1 ledger

/-- Witness for C2 at a concrete ledger. -/
theorem c2_round_trip_witness :
    (([("h", [("o1", "b"), ("o2", "a")]), ("k", [("o3", "c")])].map
        Prod.fst).Nodup) ∧
    get_files_to_delete
        (some (write_duplicate_report
          [("h", [("o1", "b"), ("o2", "a")]), ("k", [("o3", "c")])])) =
      filesToDeleteOfGroups
        (ledgerNewGroups [("h", [("o1", "b"), ("o2", "a")]), ("k", [("o3", "c")])]) :=
  ⟨by decide,
    c2_round_trip [("h", [("o1", "b"), ("o2", "a")]), ("k", [("o3", "c")])]
      (by decide)⟩

/-! ## Decimal numerals are injective

`get_unique_filename` builds counter names with `f"{stem}-{counter}"`, i.e.
with the decimal rendering `Nat.repr` of the counter.  Distinct counters give
distinct names; this is proved by evaluating the decimal string back to its
value. -/

/-- Value of a decimal digit character (0 for non-digits). -/
def charVal (c : Char) : Nat :=
  if c = '0' then 0 else if c = '1' then 1 else if c = '2' then 2 else
  if c = '3' then 3 else if c = '4' then 4 else if c = '5' then 5 else
  if c = '6' then 6 else if c = '7' then 7 else if c = '8' then 8 else
  if c = '9' then 9 else 0

/-- Value of a decimal digit string. -/
def digitsVal (l : List Char) : Nat :=
  l.foldl (fun a c => 10 * a + charVal c) 0

theorem digitsVal_append (l : List Char) (c : Char) :
    digitsVal (l ++ [c]) = 10 * digitsVal l + charVal c := by
  unfold digitsVal
  rw [List.foldl_append]
  rfl

theorem charVal_digitChar (d : Nat) (h : d < 10) :
    charVal (Nat.digitChar d) = d := by
  interval_cases d <;> decide

theorem toDigitsCore_frame :
    ∀ (fuel n : Nat) (ds : List Char),
      Nat.toDigitsCore 10 fuel n ds = Nat.toDigitsCore 10 fuel n [] ++ ds := by
  intro fuel
  induction fuel with
  | zero => intro n ds; rfl
  | succ fuel ih =>
    intro n ds
    simp only [Nat.toDigitsCore]
    by_cases h : n / 10 = 0
    · rw [if_pos h, if_pos h]
      rfl
    · rw [if_neg h, if_neg h, ih (n / 10) (Nat.digitChar (n % 10) :: ds),
        ih (n / 10) [Nat.digitChar (n % 10)]]
      simp

theorem toDigitsCore_val :
    ∀ (fuel n : Nat), n < fuel →
      digitsVal (Nat.toDigitsCore 10 fuel n []) = n := by
  intro fuel
  induction fuel with
  | zero => intro n h; omega
  | succ fuel ih =>
    intro n h
    simp only [Nat.toDigitsCore]
    by_cases h0 : n / 10 = 0
    · rw [if_pos h0]
      have hval : digitsVal [Nat.digitChar (n % 10)] =
          charVal (Nat.digitChar (n % 10)) := by
        simp [digitsVal]
      rw [hval, charVal_digitChar _ (Nat.mod_lt _ (by norm_num))]
      omega
    · rw [if_neg h0, toDigitsCore_frame, digitsVal_append,
        ih (n / 10) (by omega), charVal_digitChar _ (Nat.mod_lt _ (by norm_num))]
      omega

theorem repr_digitsVal (n : Nat) : digitsVal (Nat.repr n).data = n := by
  show digitsVal ((Nat.toDigits 10 n).asString).data = n
  show digitsVal (Nat.toDigitsCore 10 (n + 1) n []) = n
  exact toDigitsCore_val (n + 1) n (by omega)

theorem repr_data_inj {a b : Nat} (h : (Nat.repr a).data = (Nat.repr b).data) :
    a = b := by
  have := congrArg digitsVal h
  rwa [repr_digitsVal, repr_digitsVal] at this

/-! ## The path resolver: `get_unique_filename` -/

/-- The parent / stem / suffix decomposition of the `Path` handed to
`get_unique_filename` (`destination_path.parent`, `.stem`, `.suffix`).
`render` is its string form; for any pathlib path, `name = stem + suffix`
and `str(path) = str(parent) + "/" + name`. -/
structure FsPath where
  parent : String
  stem : String
  suffix : String

/-- String rendering of the path itself. -/
def FsPath.render (p : FsPath) : String :=
  p.parent ++ "/" ++ (p.stem ++ p.suffix)

/-- String rendering of `parent / (f"{stem}-{counter}" + suffix)`, the
candidate tried for a given counter. -/
def FsPath.candidate (p : FsPath) (counter : Nat) : String :=
  p.parent ++ "/" ++ (p.stem ++ "-" ++ toString counter ++ p.suffix)

theorem FsPath.candidate_inj (p : FsPath) {j k : Nat}
    (h : p.candidate j = p.candidate k) : j = k := by
  unfold FsPath.candidate at h
  have hd := congrArg String.data h
  simp only [String.data_append, List.append_assoc] at hd
  have h1 := List.append_cancel_left hd
  have h2 := List.append_cancel_left h1
  have h3 := List.append_cancel_left h2
  have h4 := List.append_cancel_left h3
  have h5 := List.append_cancel_right h4
  exact repr_data_inj h5

/-- On any finite filesystem some counter is unused: there are more candidate
names than existing entries. -/
theorem exists_unused (fs : Finset String) (p : FsPath) (k : Nat) :
    ∃ d, p.candidate (k + d) ∉ fs := by
  by_contra hall
  push_neg at hall
  have hmaps : ∀ d ∈ Finset.range (fs.card + 1), p.candidate (k + d) ∈ fs :=
    fun d _ => hall d
  have hinj : Set.InjOn (fun d => p.candidate (k + d))
      (Finset.range (fs.card + 1)) := by
    intro a _ b _ hab
    have := FsPath.candidate_inj p hab
    omega
  have hcard := Finset.card_le_card_of_injOn _ hmaps hinj
  simp [Finset.card_range] at hcard

theorem find_unused_succ_lt (fs : Finset String) (p : FsPath) (k : Nat)
    (hc : p.candidate k ∈ fs) :
    Nat.find (exists_unused fs p (k + 1)) < Nat.find (exists_unused fs p k) := by
  have hspec := Nat.find_spec (exists_unused fs p k)
  have hne : Nat.find (exists_unused fs p k) ≠ 0 := by
    intro h0
    rw [h0] at hspec
    exact hspec (by simpa using hc)
  have heq : k + 1 + (Nat.find (exists_unused fs p k) - 1) =
      k + Nat.find (exists_unused fs p k) := by omega
  have hle : Nat.find (exists_unused fs p (k + 1)) ≤
      Nat.find (exists_unused fs p k) - 1 :=
    Nat.find_le (by rw [heq]; exact hspec)
  omega

/-- The `while True` loop of `get_unique_filename`, started at a counter `k`:
try `candidate k`, and move to `k + 1` while it exists.  Termination holds
because the filesystem is finite. -/
def uniqueLoop (fs : Finset String) (p : FsPath) (k : Nat) : String :=
  if h : p.candidate k ∈ fs then uniqueLoop fs p (k + 1) else p.candidate k
termination_by Nat.find (exists_unused fs p k)
decreasing_by exact find_unused_succ_lt fs p k h

/-- Embedding of `get_unique_filename`: return the path unchanged when it
does not exist, otherwise run the counter loop from 1. -/
def get_unique_filename (fs : Finset String) (p : FsPath) : String :=
  if p.render ∉ fs then p.render else uniqueLoop fs p 1

theorem uniqueLoop_spec (fs : Finset String) (p : FsPath) (k : Nat) :
    ∃ j, k ≤ j ∧ uniqueLoop fs p k = p.candidate j ∧ p.candidate j ∉ fs ∧
      ∀ i, k ≤ i → i < j → p.candidate i ∈ fs := by
  have main : ∀ (d k : Nat), Nat.find (exists_unused fs p k) = d →
      ∃ j, k ≤ j ∧ uniqueLoop fs p k = p.candidate j ∧ p.candidate j ∉ fs ∧
        ∀ i, k ≤ i → i < j → p.candidate i ∈ fs := by
    intro d
    induction d using Nat.strong_induction_on with
    | _ d IH =>
      intro k hk
      by_cases hc : p.candidate k ∈ fs
      · have hrw : uniqueLoop fs p k = uniqueLoop fs p (k + 1) := by
          rw [uniqueLoop]
          exact dif_pos hc
        have hlt : Nat.find (exists_unused fs p (k + 1)) < d :=
          hk ▸ find_unused_succ_lt fs p k hc
        obtain ⟨j, hj1, hj2, hj3, hj4⟩ := IH _ hlt (k + 1) rfl
        refine ⟨j, by omega, hrw.trans hj2, hj3, ?_⟩
        intro i h1 h2
        rcases Nat.eq_or_lt_of_le h1 with rfl | hlt'
        · exact hc
        · exact hj4 i (by omega) h2
      · refine ⟨k, Nat.le_refl k, ?_, hc, fun i h1 h2 => by omega⟩
        rw [uniqueLoop]
        exact dif_neg hc
  exact main _ k rfl

/-- Full behaviour of `get_unique_filename` over a fixed finite filesystem. -/
theorem get_unique_filename_spec (fs : Finset String) (p : FsPath) :
    (p.render ∉ fs → get_unique_filename fs p = p.render) ∧
    (p.render ∈ fs →
      ∃ k, 1 ≤ k ∧ get_unique_filename fs p = p.candidate k ∧
        p.candidate k ∉ fs ∧ ∀ i, 1 ≤ i → i < k → p.candidate i ∈ fs) := by
  constructor
  · intro h
    unfold get_unique_filename
    rw [if_pos h]
  · intro h
    unfold get_unique_filename
    rw [if_neg (by simpa using h)]
    exact uniqueLoop_spec fs p 1

/-- C5.  `get_unique_filename` returns a non-existing candidate unchanged;
otherwise it returns the `stem-k` variant for the lowest counter `k ≥ 1`
whose path does not exist (every smaller counter's path exists).  It is a
pure function of the filesystem state (hence deterministic, and repeated
calls against an unchanged filesystem agree), and after the first result is
created, a further call returns the next counter's path whenever that path
was free. -/
theorem c5_resolve_unique_name (fs : Finset String) (p : FsPath) :
    (p.render ∉ fs → get_unique_filename fs p = p.render) ∧
    (p.render ∈ fs →
      ∃ k, 1 ≤ k ∧ get_unique_filename fs p = p.candidate k ∧
        p.candidate k ∉ fs ∧ ∀ i, 1 ≤ i → i < k → p.candidate i ∈ fs) ∧
    (∀ k, p.render ∈ fs → get_unique_filename fs p = p.candidate k →
      p.candidate (k + 1) ∉ fs →
      get_unique_filename (insert (p.candidate k) fs) p =
        p.candidate (k + 1)) := by
  refine ⟨(get_unique_filename_spec fs p).1, (get_unique_filename_spec fs p).2, ?_⟩
  intro k hr hk hnext
  obtain ⟨k₀, hk₀1, hk₀2, hk₀3, hk₀4⟩ := (get_unique_filename_spec fs p).2 hr
  have hkk₀ : k = k₀ := FsPath.candidate_inj p (hk.symm.trans hk₀2)
  subst hkk₀
  have hr' : p.render ∈ insert (p.candidate k) fs := Finset.mem_insert_of_mem hr
  obtain ⟨j, hj1, hj2, hj3, hj4⟩ :=
    (get_unique_filename_spec (insert (p.candidate k) fs) p).2 hr'
  have hjne : p.candidate j ∉ fs := fun hmem => hj3 (Finset.mem_insert_of_mem hmem)
  have hjk : j ≠ k := by
    intro hjk
    exact hj3 (hjk ▸ Finset.mem_insert_self (p.candidate k) fs)
  have hjge : k + 1 ≤ j := by
    rcases Nat.lt_or_ge j (k + 1) with hlt | hge
    · have hjltk : j < k := by omega
      exact absurd (hk₀4 j hj1 hjltk) hjne
    · exact hge
  have hjle : j ≤ k + 1 := by
    by_contra hgt
    push_neg at hgt
    have hmem := hj4 (k + 1) (by omega) hgt
    rcases Finset.mem_insert.1 hmem with heq | hmem'
    · exact absurd (FsPath.candidate_inj p heq) (by omega)
    · exact hnext hmem'
  have : j = k + 1 := by omega
  rw [this] at hj2
  exact hj2

/-- Witness for C5 at a concrete path and filesystem. -/
theorem c5_resolve_unique_name_witness :
    ((FsPath.mk "d" "p" ".jpg").render ∉ (∅ : Finset String) ∧
      get_unique_filename ∅ (FsPath.mk "d" "p" ".jpg") =
        (FsPath.mk "d" "p" ".jpg").render) ∧
    ((FsPath.mk "d" "p" ".jpg").render ∈ ({"d/p.jpg"} : Finset String) ∧
      ∃ k, 1 ≤ k ∧
        get_unique_filename {"d/p.jpg"} (FsPath.mk "d" "p" ".jpg") =
          (FsPath.mk "d" "p" ".jpg").candidate k ∧
        (FsPath.mk "d" "p" ".jpg").candidate k ∉ ({"d/p.jpg"} : Finset String) ∧
        ∀ i, 1 ≤ i → i < k →
          (FsPath.mk "d" "p" ".jpg").candidate i ∈ ({"d/p.jpg"} : Finset String)) :=
  ⟨⟨by decide,
      (c5_resolve_unique_name ∅ (FsPath.mk "d" "p" ".jpg")).1 (by decide)⟩,
    ⟨by decide,
      (c5_resolve_unique_name {"d/p.jpg"} (FsPath.mk "d" "p" ".jpg")).2.1
        (by decide)⟩⟩

/-! ## The transfer engine: `create_date_based_directory` and `transfer_file` -/

/-- The two fields of a `datetime` read by `create_date_based_directory`. -/
structure PyDate where
  year : Nat
  month : Nat

/-- Python `f"{n:02d}"`: the decimal rendering zero-padded to width 2. -/
def pad2 (n : Nat) : String :=
  if (toString n).length < 2 then "0" ++ toString n else toString n

/-- The month directory name `f"{date.year}-{date.month:02d}"`. -/
def monthDirName (date : PyDate) : String :=
  toString date.year ++ "-" ++ pad2 date.month

/-- Embedding of `create_date_based_directory`: build the `YYYY-MM`
subdirectory path and create it; `mkdir(parents=True, exist_ok=True)` is set
insertion (ancestor entries are not tracked), total also when the directory
already exists.  Returns the directory and the updated filesystem. -/
def create_date_based_directory (fs : Finset String) (destination_dir : String)
    (date : PyDate) : String × Finset String :=
  let month_dir := destination_dir ++ "/" ++ monthDirName date
  (month_dir, insert month_dir fs)

/-- Index of the last dot in a name, as Python `name.rfind('.')` (`none` when
there is no dot, where Python returns `-1`). -/
def lastDotIdx (l : List Char) : Option Nat :=
  (l.reverse.findIdx? (fun c => c == '.')).map (fun j => l.length - 1 - j)

/-- Pathlib `PurePath.suffix`: `name[i:]` for the last dot index `i` when
`0 < i < len(name) - 1`, otherwise the empty string. -/
def py_suffix (name : String) : String :=
  match lastDotIdx name.data with
  | some i =>
    if 0 < i ∧ i + 1 < name.data.length then ⟨name.data.drop i⟩ else ""
  | none => ""

/-- Pathlib `PurePath.stem`: `name[:i]` for the last dot index `i` when
`0 < i < len(name) - 1`, otherwise the whole name. -/
def py_stem (name : String) : String :=
  match lastDotIdx name.data with
  | some i =>
    if 0 < i ∧ i + 1 < name.data.length then ⟨name.data.take i⟩ else name
  | none => name

/-- The target-directory selection of `transfer_file`: the date-based
directory when a date is present, the `missing_date` subdirectory (created
with `mkdir(exist_ok=True)`) when it is absent. -/
def transfer_target (fs : Finset String) (destination_dir : String)
    (date : Option PyDate) : String × Finset String :=
  match date with
  | some d => create_date_based_directory fs destination_dir d
  | none =>
    let target_dir := destination_dir ++ "/" ++ "missing_date"
    (target_dir, insert target_dir fs)

/-- Embedding of `transfer_file`: choose the target directory, resolve a
unique destination name for `target_dir / image_path.name` (for any pathlib
path, `name = stem + suffix`), then copy or move; `shutil.copy2` adds the
destination entry, `shutil.move` also removes the source entry.  Returns the
final destination path and the updated filesystem. -/
def transfer_file (fs : Finset String) (image_path : FsPath)
    (destination_dir : String) (date : Option PyDate) (copy : Bool) :
    String × Finset String :=
  let td := transfer_target fs destination_dir date
  let name := image_path.stem ++ image_path.suffix
  let destination_path :=
    get_unique_filename td.2 ⟨td.1, py_stem name, py_suffix name⟩
  if copy then (destination_path, insert destination_path td.2)
  else (destination_path, insert destination_path (td.2.erase image_path.render))

theorem get_unique_filename_parent (fs : Finset String) (p : FsPath) :
    ∃ nm, get_unique_filename fs p = p.parent ++ "/" ++ nm := by
  unfold get_unique_filename
  by_cases h : p.render ∉ fs
  · rw [if_pos h]
    exact ⟨p.stem ++ p.suffix, rfl⟩
  · rw [if_neg h]
    obtain ⟨j, _, hj2, _, _⟩ := uniqueLoop_spec fs p 1
    exact ⟨p.stem ++ "-" ++ toString j ++ p.suffix, hj2⟩

/-- C9.  Target-directory derivation of `transfer_file`: with a date the
target directory is the root's `YYYY-MM` subdirectory (year, dash,
zero-padded month), without one it is the fixed `missing_date` subdirectory
of the root; the final destination path lies directly under the target
directory; the target directory is in the filesystem after the mkdir step,
and creating it when it already exists is not an error and changes nothing. -/
theorem c9_transfer_target_directory (fs : Finset String) (image_path : FsPath)
    (destination_dir : String) (date : Option PyDate) (copy : Bool) :
    (∀ d, date = some d →
      (transfer_target fs destination_dir date).1 =
        destination_dir ++ "/" ++ (toString d.year ++ "-" ++ pad2 d.month)) ∧
    (date = none →
      (transfer_target fs destination_dir date).1 =
        destination_dir ++ "/" ++ "missing_date") ∧
    (∃ nm, (transfer_file fs image_path destination_dir date copy).1 =
      (transfer_target fs destination_dir date).1 ++ "/" ++ nm) ∧
    ((transfer_target fs destination_dir date).1 ∈
      (transfer_target fs destination_dir date).2) ∧
    ((transfer_target fs destination_dir date).1 ∈ fs →
      (transfer_target fs destination_dir date).2 = fs) := by
  refine ⟨?_, ?_, ?_, ?_, ?_⟩
  · intro d hd
    subst hd
    rfl
  · intro hd
    subst hd
    rfl
  · obtain ⟨nm, hnm⟩ := get_unique_filename_parent
      (transfer_target fs destination_dir date).2
      ⟨(transfer_target fs destination_dir date).1,
        py_stem (image_path.stem ++ image_path.suffix),
        py_suffix (image_path.stem ++ image_path.suffix)⟩
    refine ⟨nm, ?_⟩
    unfold transfer_file
    by_cases hc : copy
    · rw [if_pos hc]
      exact hnm
    · rw [if_neg hc]
      exact hnm
  · match date with
    | some d => exact Finset.mem_insert_self _ _
    | none => exact Finset.mem_insert_self _ _
  · intro hmem
    match date with
    | some d => exact Finset.insert_eq_self.2 hmem
    | none => exact Finset.insert_eq_self.2 hmem

/-- Witness for C9 at concrete inputs, for both a present and an absent
date. -/
theorem c9_transfer_target_directory_witness :
    ((transfer_target ∅ "dest" (some (PyDate.mk 2023 10))).1 =
      "dest" ++ "/" ++ (toString 2023 ++ "-" ++ pad2 10)) ∧
    ((transfer_target ∅ "dest" none).1 = "dest" ++ "/" ++ "missing_date") ∧
    (∃ nm, (transfer_file ∅ (FsPath.mk "src" "img" ".jpg") "dest" none true).1 =
      (transfer_target ∅ "dest" none).1 ++ "/" ++ nm) :=
  ⟨(c9_transfer_target_directory ∅ (FsPath.mk "src" "img" ".jpg") "dest"
      (some (PyDate.mk 2023 10)) true).1 (PyDate.mk 2023 10) rfl,
    (c9_transfer_target_directory ∅ (FsPath.mk "src" "img" ".jpg") "dest"
      none true).2.1 rfl,
    (c9_transfer_target_directory ∅ (FsPath.mk "src" "img" ".jpg") "dest"
      none true).2.2.1⟩

/-! ## The metadata extractor: `get_exif_date` -/

/-- Outcome of `Image.open(...)` / `img._getexif()`: the read raises, returns
`None`, or returns the EXIF tag dictionary (tag number to string value). -/
inductive ExifRead where
  | readError : ExifRead
  | noExif : ExifRead
  | exif (tags : List (Nat × String)) : ExifRead

/-- Embedding of `get_exif_date`.  PIL and `datetime.strptime` live outside
the repository, so the image read is an `ExifRead` oracle and `strptime` an
oracle returning `none` when parsing the fixed `"%Y:%m:%d %H:%M:%S"` format
raises.  The body's `try/except Exception: pass` plus the final `return None`
means every failure becomes `none`: a raising read, a falsy (`None` or empty)
tag dict, a missing or falsy `DateTimeOriginal` entry (tag 36867), and a
failing parse. -/
def get_exif_date {DT : Type} (img : ExifRead)
    (strptime : String → Option DT) : Option DT :=
  match img with
  | .readError => none
  | .noExif => none
  | .exif tags =>
    if tags.isEmpty then none
    else
      match tags.lookup 36867 with
      | none => none
      | some date_str => if date_str = "" then none else strptime date_str

/-- C6.  `get_exif_date` never propagates an error: an unreadable file, a
missing or empty metadata container, a missing `DateTimeOriginal` field and
an unparseable timestamp all produce `none` rather than an exception, and a
date is returned exactly when the field is present, non-empty and parses. -/
theorem c6_exif_best_effort {DT : Type} (img : ExifRead)
    (strptime : String → Option DT) :
    get_exif_date ExifRead.readError strptime = none ∧
    get_exif_date ExifRead.noExif strptime = none ∧
    (∀ tags : List (Nat × String), tags.lookup 36867 = none →
      get_exif_date (ExifRead.exif tags) strptime = none) ∧
    (∀ (tags : List (Nat × String)) (date_str : String),
      tags.lookup 36867 = some date_str → strptime date_str = none →
      get_exif_date (ExifRead.exif tags) strptime = none) ∧
    (∀ d : DT, get_exif_date img strptime = some d ↔
      ∃ (tags : List (Nat × String)) (date_str : String),
        img = ExifRead.exif tags ∧ tags ≠ [] ∧
        tags.lookup 36867 = some date_str ∧ date_str ≠ "" ∧
        strptime date_str = some d) := by
  refine ⟨rfl, rfl, ?_, ?_, ?_⟩
  · intro tags hl
    simp only [get_exif_date]
    by_cases he : tags.isEmpty
    · rw [if_pos he]
    · rw [if_neg he, hl]
  · intro tags date_str hl hp
    simp only [get_exif_date]
    by_cases he : tags.isEmpty
    · rw [if_pos he]
    · rw [if_neg he, hl]
      show (if date_str = "" then none else strptime date_str) = none
      by_cases hs : date_str = ""
      · rw [if_pos hs]
      · rw [if_neg hs]
        exact hp
  · intro d
    constructor
    · intro h
      match img with
      | .readError => exact absurd h (by simp [get_exif_date])
      | .noExif => exact absurd h (by simp [get_exif_date])
      | .exif tags =>
        simp only [get_exif_date] at h
        by_cases he : tags.isEmpty
        · rw [if_pos he] at h
          cases h
        · rw [if_neg he] at h
          match hl : tags.lookup 36867 with
          | none =>
            rw [hl] at h
            cases h
          | some date_str =>
            rw [hl] at h
            have h' : (if date_str = "" then none else strptime date_str) =
                some d := h
            by_cases hs : date_str = ""
            · rw [if_pos hs] at h'
              cases h'
            · rw [if_neg hs] at h'
              refine ⟨tags, date_str, rfl, ?_, hl, hs, h'⟩
              intro hnil
              rw [hnil] at he
              exact he rfl
    · rintro ⟨tags, date_str, rfl, hne, hl, hs, hp⟩
      simp only [get_exif_date]
      have he : ¬ tags.isEmpty = true := by
        intro he
        exact hne (List.isEmpty_iff.1 he)
      rw [if_neg he, hl]
      show (if date_str = "" then none else strptime date_str) = some _
      rw [if_neg hs]
      exact hp

/-- Witness for C6 at concrete oracles. -/
theorem c6_exif_best_effort_witness :
    ((([(1, "x")] : List (Nat × String)).lookup 36867 = none ∧
      get_exif_date (ExifRead.exif [(1, "x")])
        (fun _ => (none : Option Nat)) = none) ∧
     (([(36867, "bad")] : List (Nat × String)).lookup 36867 = some "bad" ∧
      get_exif_date (ExifRead.exif [(36867, "bad")])
        (fun _ => (none : Option Nat)) = none)) :=
  ⟨⟨by decide,
      (c6_exif_best_effort (ExifRead.exif [(1, "x")])
        (fun _ => (none : Option Nat))).2.2.1 [(1, "x")] (by decide)⟩,
    ⟨by decide,
      (c6_exif_best_effort (ExifRead.exif [(36867, "bad")])
        (fun _ => (none : Option Nat))).2.2.2.1 [(36867, "bad")] "bad"
        (by decide) rfl⟩⟩

/-! ## The `organize` command's source/destination validation -/

/-- Pathlib `path.parents` on a resolved absolute path, modelled as the list
of its components below the filesystem root: every proper ancestor, i.e.
every strictly shorter initial segment of the component list (Python orders
them from immediate parent down to the root; only membership is used). -/
def py_parents (p : List String) : List (List String) :=
  (List.range p.length).map (fun k => p.take k)

/-- The per-source overlap test of `organize` on resolved paths:
`s_resolved == d_resolved or s_resolved in d_resolved.parents or
d_resolved in s_resolved.parents`. -/
def sourceOverlapsDest (s d : List String) : Bool :=
  s == d || (py_parents d).contains s || (py_parents s).contains d

/-- The validation loop of `organize`: it raises `click.UsageError` exactly
when some source overlaps the destination. -/
def organizeRejects (sources : List (List String)) (d : List String) : Bool :=
  sources.any (fun s => sourceOverlapsDest s d)

theorem mem_py_parents {x p : List String} :
    x ∈ py_parents p ↔ ∃ t, t ≠ [] ∧ p = x ++ t := by
  unfold py_parents
  rw [List.mem_map]
  constructor
  · rintro ⟨k, hk, rfl⟩
    rw [List.mem_range] at hk
    refine ⟨p.drop k, ?_, (List.take_append_drop k p).symm⟩
    intro hnil
    have := congrArg List.length hnil
    simp at this
    omega
  · rintro ⟨t, htne, rfl⟩
    refine ⟨x.length, ?_, ?_⟩
    · rw [List.mem_range, List.length_append]
      have : t.length ≠ 0 := fun h => htne (List.length_eq_zero.1 h)
      omega
    · rw [List.take_left]

/-- C7.  The overlap validation, on canonicalized absolute paths (component
lists), rejects a source exactly when it is identical to, an ancestor of, or
a descendant of the destination — so sibling or unrelated paths are accepted
— and the `organize` run is rejected exactly when some source overlaps. -/
theorem c7_overlap_validation (s d : List String) :
    (sourceOverlapsDest s d = true ↔
      s = d ∨ (∃ t, t ≠ [] ∧ d = s ++ t) ∨ (∃ t, t ≠ [] ∧ s = d ++ t)) ∧
    (∀ sources : List (List String),
      organizeRejects sources d = true ↔
        ∃ s' ∈ sources, sourceOverlapsDest s' d = true) := by
  constructor
  · unfold sourceOverlapsDest
    simp only [Bool.or_eq_true, beq_iff_eq, List.contains, List.elem_iff,
      mem_py_parents]
    exact or_assoc
  · intro sources
    unfold organizeRejects
    rw [List.any_eq_true]

end OrganizePhotos
